import Mathlib

/-!
Verification development for the Coxeter-automaton engine of
`src/uniform-tilings/coxeter/automata.py`: DFA subset construction
(`get_automaton`) and Hopcroft partition-refinement minimization
(`Hopcroft.__call__`, reached through `DFA.minimize`).

Modelling conventions (shallow embedding):
* Python objects live in an explicit store (`Store := List DFAState`);
  object references are store indices.  Mutation of an object is
  `setState` at its index, allocation is appending at the end, so the
  heap discipline of the Python code (which objects a routine reads,
  creates and writes) is visible to the logic.
* Python `frozenset`s of state objects are `Finset ℕ` of store indices;
  a `dict` keyed by symbols is an insertion-ordered association list.
  Where CPython iterates a set in unspecified order, the embedding
  fixes a concrete order (ascending indices via `fsetAsc`, or list
  order for worklists); the results proved below do not depend on it.
* The dynamically typed `DFAState.subset` field holds either a
  `frozenset` (builder states) or, after the rebuild in
  `Hopcroft.__call__` passes `state.accept` positionally, a Python
  bool; `Label` is the corresponding sum.
* Python exceptions become `Except Err`; `Err` distinguishes the
  `ValueError` raised by the mode check in `get_automaton`
  (`configError`), the `ValueError` of `DFAState.add_transition`
  (`transitionError`), numpy/list `IndexError`s, the `TypeError` of
  iterating a non-iterable, and `StopIteration`.
* Unbounded recursion/loops take a fuel argument; fuel is chosen large
  enough for every concrete run in this file, and exhaustion is the
  distinct outcome `fuelOut` (the Python code would instead diverge,
  which the spec excludes for well-formed inputs).
-/

set_option autoImplicit false

namespace CoxAut

/-- Python runtime error kinds raised by the engine. -/
inductive Err where
  | configError
  | indexError
  | transitionError
  | typeError
  | stopIteration
  | fuelOut
  deriving DecidableEq

/-- The dynamically typed `DFAState.subset` field: a frozenset of root
indices for states made by the builder, or a Python bool for states made
by the rebuild step of `Hopcroft.__call__` (which passes `state.accept`
in the `subset` position). -/
inductive Label where
  | set : Finset ℕ → Label
  | boolean : Bool → Label
  deriving DecidableEq

/-- `DFAState.__init__`: `subset`, `accept` (default `True` in the
source), `index = None`, empty transition dict (insertion-ordered
association list from symbols to target state indices). -/
structure DFAState where
  subset : Label
  accept : Bool
  index : Option ℕ
  transitions : List (ℕ × ℕ)
  deriving DecidableEq

/-- The heap of `DFAState` objects; object references are indices. -/
abbrev Store := List DFAState

/-- The `DFA` container: start-state reference, symbol tuple, and the
state count returned by `reindex`. -/
structure DFA where
  start : ℕ
  sigma : List ℕ
  num_states : ℕ
  deriving DecidableEq

deriving instance DecidableEq for Except

/-- Ascending enumeration of a finite set of naturals (the fixed order
chosen for CPython's unspecified frozenset iteration order; every
element is at most the set's sum, so filtering the range below
`sum + 1` lists exactly the elements). -/
def fsetAsc (S : Finset ℕ) : List ℕ :=
  (List.range (S.sum id + 1)).filter (fun x => decide (x ∈ S))

/-- Dereference a state object. -/
def getState (store : Store) (i : ℕ) : Option DFAState :=
  store.get? i

/-- Overwrite a state object in the heap. -/
def setState (store : Store) (i : ℕ) (v : DFAState) : Store :=
  store.set i v

/-- `dict` lookup on the transition association list (first match;
keys are unique for lists built through `add_transition`). -/
def tlookup (k : ℕ) : List (ℕ × ℕ) → Option ℕ
  | [] => none
  | (k', v) :: rest => if k' = k then some v else tlookup k rest

/-- `DFAState.add_transition`: raise `ValueError` if the symbol is
already present, otherwise insert at the end of the dict. -/
def add_transition (s : DFAState) (symbol target : ℕ) : Except Err DFAState :=
  if (tlookup symbol s.transitions).isSome then
    .error .transitionError
  else
    .ok { s with transitions := s.transitions ++ [(symbol, target)] }

/-- `add_transition` performed on the object at index `sid` of the heap. -/
def addTransStore (store : Store) (sid symbol target : ℕ) : Except Err Store :=
  match getState store sid with
  | none => .error .indexError
  | some s =>
    match add_transition s symbol target with
    | .error e => .error e
    | .ok s' => .ok (setState store sid s')

/-- Total count of transitions in the heap (used for fuel bounds). -/
def totalTrans (store : Store) : ℕ :=
  store.foldl (fun a st => a + st.transitions.length) 0

/-- Fuel bound for the depth-first traversals (`reindex` and
`Hopcroft.initial_partition`): nodes plus edges plus slack. -/
def dfsFuel (store : Store) : ℕ :=
  2 * (store.length + totalTrans store) + 4

/-- `DFA.reindex`, generalized to a worklist: depth-first traversal from
the given states, assigning sequential indices to states whose `index`
is still `None`, following transitions in insertion order (the source is
the recursive method `reindex`; the fuel argument bounds nesting). -/
def reindexMany : ℕ → Store → List ℕ → ℕ → Store × ℕ
  | 0, store, _, next => (store, next)
  | _ + 1, store, [], next => (store, next)
  | fuel + 1, store, sid :: rest, next =>
    match getState store sid with
    | none => reindexMany fuel store rest next
    | some st =>
      match st.index with
      | some _ => reindexMany fuel store rest next
      | none =>
        let store₁ := setState store sid { st with index := some next }
        let pr := reindexMany fuel store₁ (st.transitions.map Prod.snd) (next + 1)
        reindexMany fuel pr.1 rest pr.2

/-- numpy `table[j][i]` on the root table: `IndexError` when out of
range, otherwise the optional image root.  The table models a 2-D
`dtype=object` array, i.e. a rectangular nested list. -/
def tableGet (table : List (List (Option ℕ))) (j i : ℕ) : Except Err (Option ℕ) :=
  match table.get? j with
  | none => .error .indexError
  | some row =>
    match row.get? i with
    | none => .error .indexError
    | some v => .ok v

/-- `rank = table.shape[1]` (row length of the rectangular table). -/
def tableRank (table : List (List (Option ℕ))) : ℕ :=
  table.headI.length

/-- The loop `for j in js: k = table[j][i]; if k is not None: result.add(k)`
inside `subset_transition`, accumulating into `acc`. -/
def addRoots (table : List (List (Option ℕ))) (i : ℕ) :
    List ℕ → Finset ℕ → Except Err (Finset ℕ)
  | [], acc => .ok acc
  | j :: js, acc =>
    match tableGet table j i with
    | .error e => .error e
    | .ok none => addRoots table i js acc
    | .ok (some k) => addRoots table i js (insert k acc)

/-- `subset_transition(S, i)` from `get_automaton`: `None` when
`i ∈ S`; otherwise `{i}` joined with the images `table[j][i]` of the
members `j ∈ S`, and additionally of all `j < i` exactly in `shortlex`
mode.  Iterating the frozenset `S` is modelled in ascending order (the
resulting set does not depend on the order).  `i in S` on a bool
`subset` would raise `TypeError`. -/
def subset_transition (table : List (List (Option ℕ))) (tp : String)
    (l : Label) (i : ℕ) : Except Err (Option (Finset ℕ)) :=
  match l with
  | .boolean _ => .error .typeError
  | .set S =>
    if i ∈ S then .ok none
    else
      match addRoots table i (fsetAsc S) {i} with
      | .error e => .error e
      | .ok r₁ =>
        if tp = "shortlex" then
          match addRoots table i (List.range i) r₁ with
          | .error e => .error e
          | .ok r₂ => .ok (some r₂)
        else .ok (some r₁)

/-- The linear scan `for T in states: if t == T.subset` of
`get_automaton`, returning the index of the first state carrying the
label. -/
def findLabelAux : List DFAState → Label → ℕ → Option ℕ
  | [], _, _ => none
  | st :: rest, l, k => if st.subset = l then some k else findLabelAux rest l (k + 1)

def findLabel (store : Store) (l : Label) : Option ℕ :=
  findLabelAux store l 0

/-- The body `for i in range(rank)` of the BFS in `get_automaton`,
processing the dequeued state `sid` for each symbol of `syms` in turn:
skip symbols with a known transition, compute `subset_transition`,
reuse a state with the computed label or create (append) a fresh one
and enqueue it.  Errors carry the heap at the moment they are raised.
(The Python code appends the fresh state to `states` after wiring the
transition; allocation is modelled first because the fresh index is
needed — the observable store is identical.) -/
def processSyms (table : List (List (Option ℕ))) (tp : String) (sid : ℕ) :
    List ℕ → Store → List ℕ → Except (Err × Store) (Store × List ℕ)
  | [], store, queue => .ok (store, queue)
  | i :: syms, store, queue =>
    match getState store sid with
    | none => .error (.indexError, store)
    | some S =>
      if (tlookup i S.transitions).isSome then
        processSyms table tp sid syms store queue
      else
        match subset_transition table tp S.subset i with
        | .error e => .error (e, store)
        | .ok none => processSyms table tp sid syms store queue
        | .ok (some t) =>
          match findLabel store (.set t) with
          | some tid =>
            match addTransStore store sid i tid with
            | .error e => .error (e, store)
            | .ok store' => processSyms table tp sid syms store' queue
          | none =>
            match addTransStore (store ++ [⟨.set t, true, none, []⟩]) sid i
                store.length with
            | .error e => .error (e, store ++ [⟨.set t, true, none, []⟩])
            | .ok store₂ => processSyms table tp sid syms store₂ (queue ++ [store.length])

/-- The breadth-first loop `while queue` of `get_automaton`. -/
def bfsLoop (table : List (List (Option ℕ))) (tp : String) (rank : ℕ) :
    ℕ → Store → List ℕ → Except (Err × Store) Store
  | 0, store, _ => .error (.fuelOut, store)
  | _ + 1, store, [] => .ok store
  | fuel + 1, store, sid :: rest =>
    match processSyms table tp sid (List.range rank) store rest with
    | .error e => .error e
    | .ok (store', queue') => bfsLoop table tp rank fuel store' queue'

/-- Fuel for the BFS: the reachable labels are subsets of a set whose
size is bounded by `rank + rank²` (every label element is either a
generator index or a table entry), so this bound covers any terminating
construction. -/
def bfsFuel (table : List (List (Option ℕ))) : ℕ :=
  2 ^ (tableRank table + tableRank table * tableRank table) + 1

/-- `get_automaton` up to (and including) `DFA(start, tuple(range(rank)))`,
i.e. the raw breadth-first automaton before `minimize()`: the mode check
raising `ValueError`, the BFS from the empty-label state, and the `DFA`
constructor running `reindex`. -/
def build_raw (reftable : List (List (Option ℕ))) (tp : String) :
    Except (Err × Store) (Store × DFA) :=
  if tp = "shortlex" ∨ tp = "reduced" then
    match bfsLoop reftable tp (tableRank reftable) (bfsFuel reftable)
        [⟨.set ∅, true, none, []⟩] [0] with
    | .error e => .error e
    | .ok store =>
      .ok ((reindexMany (dfsFuel store) store [0] 0).1,
        ⟨0, List.range (tableRank reftable), (reindexMany (dfsFuel store) store [0] 0).2⟩)
  else .error (.configError, [])

/-! ### Acceptance semantics

A symbol sequence is accepted from a state iff following its transitions
never hits an undefined transition and ends in an accepting state (the
spec's notion of the language of the DFA). -/

/-- Follow the transitions of `w` from state `sid`; `none` as soon as a
transition is undefined (or a reference dangles, which never happens for
stores built by the engine). -/
def run (store : Store) : ℕ → List ℕ → Option ℕ
  | sid, [] => some sid
  | sid, c :: w =>
    match getState store sid with
    | none => none
    | some st =>
      match tlookup c st.transitions with
      | none => none
      | some t => run store t w

/-- Acceptance of `w` starting from state `sid`. -/
def acceptsFrom (store : Store) (sid : ℕ) (w : List ℕ) : Bool :=
  match run store sid w with
  | none => false
  | some t =>
    match getState store t with
    | none => false
    | some st => st.accept

/-! ### `Hopcroft`: partition refinement -/

/-- The recursive `aux` of `Hopcroft.initial_partition`, as a worklist
DFS: visit each reachable state once, sorting it into the accepting set
`s1` or the non-accepting set `s2` (`for target in transitions.values():
if target not in s1 ∪ s2: aux(target)`). -/
def ipAux (store : Store) : ℕ → List ℕ → Finset ℕ × Finset ℕ → Finset ℕ × Finset ℕ
  | 0, _, acc => acc
  | _ + 1, [], acc => acc
  | fuel + 1, sid :: rest, (s1, s2) =>
    if sid ∈ s1 ∪ s2 then ipAux store fuel rest (s1, s2)
    else
      match getState store sid with
      | none => ipAux store fuel rest (s1, s2)
      | some st =>
        let acc₁ := if st.accept then (insert sid s1, s2) else (s1, insert sid s2)
        let acc₂ := ipAux store fuel (st.transitions.map Prod.snd) acc₁
        ipAux store fuel rest acc₂

/-- `Hopcroft.initial_partition`: the accepting/non-accepting blocks of
the states reachable from `start`; when either block is empty the result
is the singleton `{frozenset(s1)}` — note the source returns the
(possibly empty) *accepting* set in that case. -/
def initial_partition (store : Store) (start : ℕ) : List (Finset ℕ) :=
  if (ipAux store (dfsFuel store) [start] (∅, ∅)).1 ≠ ∅ ∧
      (ipAux store (dfsFuel store) [start] (∅, ∅)).2 ≠ ∅ then
    [(ipAux store (dfsFuel store) [start] (∅, ∅)).1,
     (ipAux store (dfsFuel store) [start] (∅, ∅)).2]
  else [(ipAux store (dfsFuel store) [start] (∅, ∅)).1]

/-- The worklist seeding of `Hopcroft.__call__`: try to unpack the
initial partition into two blocks and keep the smaller (the accepting
block on ties — CPython's unpacking order of the two-element set is
unspecified); on an unpacking failure (single block) the `except` branch
takes the whole initial partition. -/
def seedW (p : List (Finset ℕ)) : List (Finset ℕ) :=
  match p with
  | [a, b] => if a.card ≤ b.card then [a] else [b]
  | other => other

/-- `x.transitions.get(c, None); y in B` — whether state `x` moves into
block `B` under symbol `c` (`None` is never a member of `B`). -/
def goesInto (store : Store) (c : ℕ) (B : Finset ℕ) (x : ℕ) : Bool :=
  match getState store x with
  | none => false
  | some st =>
    match tlookup c st.transitions with
    | none => false
    | some y => decide (y ∈ B)

/-- `Hopcroft.split`: partition `S` by whether the `c`-transition leads
into `B`; `None` when one side is empty. -/
def split (store : Store) (S : Finset ℕ) (c : ℕ) (B : Finset ℕ) :
    Option (Finset ℕ × Finset ℕ) :=
  let s1 := S.filter (fun x => goesInto store c B x = true)
  let s2 := S.filter (fun x => ¬goesInto store c B x = true)
  if s1 ≠ ∅ ∧ s2 ≠ ∅ then some (s1, s2) else none

/-- `set.remove` on a list of blocks (first occurrence). -/
def lerase (b : Finset ℕ) : List (Finset ℕ) → List (Finset ℕ)
  | [] => []
  | x :: rest => if x = b then rest else x :: lerase b rest

/-- `Hopcroft.current_partition_containing`: the first block of the
partition containing the state (`None` when the state is in no block). -/
def findBlock : List (Finset ℕ) → ℕ → Option (Finset ℕ)
  | [], _ => none
  | b :: rest, sid => if sid ∈ b then some b else findBlock rest sid

/-- One `for Y in T` body of the refinement loop: split `Y` by `(A, c)`
and update the partition and worklist as in `Hopcroft.__call__`. -/
def refineStep (store : Store) (A : Finset ℕ) (c : ℕ)
    (PW : List (Finset ℕ) × List (Finset ℕ)) (Y : Finset ℕ) :
    List (Finset ℕ) × List (Finset ℕ) :=
  match split store Y c A with
  | none => PW
  | some (s1, s2) =>
    let P' := lerase Y PW.1 ++ [s1, s2]
    if Y ∈ PW.2 then (P', lerase Y PW.2 ++ [s1, s2])
    else if s1.card ≤ s2.card then (P', PW.2 ++ [s1])
    else (P', PW.2 ++ [s2])

/-- The `while W` loop of `Hopcroft.__call__`: pop a block `A` (the
head — CPython's `set.pop` order is unspecified), and for each symbol
`c` iterate over a snapshot `T = frozenset(self.P)` of the current
partition, splitting each block.  `none` on fuel exhaustion. -/
def refineLoop (store : Store) (sigma : List ℕ) :
    ℕ → List (Finset ℕ) → List (Finset ℕ) → Option (List (Finset ℕ))
  | 0, _, _ => none
  | _ + 1, P, [] => some P
  | fuel + 1, P, A :: W =>
    let pw := sigma.foldl (fun PW c => PW.1.foldl (refineStep store A c) PW) (P, W)
    refineLoop store sigma fuel pw.1 pw.2

/-- `result_dfa` dict lookup, keyed by blocks (frozensets). -/
def memoLookup (b : Finset ℕ) : List (Finset ℕ × ℕ) → Option ℕ
  | [] => none
  | (k, v) :: rest => if k = b then some v else memoLookup b rest

/-- The recursive `aux(subset)` of `Hopcroft.__call__` together with
its inner `for symbol, target in state.transitions.items()` loop, as a
single function structurally recursive on fuel (a `.inl b` task is a
call `aux(b)`, a `.inr (nid, ts)` task is the transition loop of the
freshly built state `nid` over the remaining items `ts`).

`aux(subset)` picks a representative (`next(iter(subset))` — modelled
as the least index; `StopIteration` on an empty block), allocates the
new state `DFAState(state.accept)` — NOTE: the source passes the
representative's accept flag as the positional `subset` argument, so
the fresh state's `subset` is a bool and its `accept` is the default
`True` — memoizes it in `result_dfa`, then wires one transition per
representative transition: the final-partition block of the target is
looked up (`None` → the subsequent `aux(None)` raises `TypeError`),
`aux` recurses into unseen blocks, and `add_transition` is called on
the freshly built state. -/
def rebuildGo (P : List (Finset ℕ)) :
    ℕ → (Finset ℕ ⊕ ℕ × List (ℕ × ℕ)) → Store → List (Finset ℕ × ℕ) →
    Except Err (Store × List (Finset ℕ × ℕ) × ℕ)
  | 0, _, _, _ => .error .fuelOut
  | fuel + 1, .inl b, store, memo =>
    match (fsetAsc b).head? with
    | none => .error .stopIteration
    | some rep =>
      match getState store rep with
      | none => .error .indexError
      | some repSt =>
        match rebuildGo P fuel (.inr (store.length, repSt.transitions))
            (store ++ [⟨.boolean repSt.accept, true, none, []⟩])
            (memo ++ [(b, store.length)]) with
        | .error e => .error e
        | .ok (store₂, memo₂, _) => .ok (store₂, memo₂, store.length)
  | _ + 1, .inr (nid, []), store, memo => .ok (store, memo, nid)
  | fuel + 1, .inr (nid, (symbol, target) :: rest), store, memo =>
    match findBlock P target with
    | none => .error .typeError
    | some tb =>
      match memoLookup tb memo with
      | some tid =>
        match addTransStore store nid symbol tid with
        | .error e => .error e
        | .ok store' => rebuildGo P fuel (.inr (nid, rest)) store' memo
      | none =>
        match rebuildGo P fuel (.inl tb) store memo with
        | .error e => .error e
        | .ok (store', memo', tid) =>
          match addTransStore store' nid symbol tid with
          | .error e => .error e
          | .ok store'' => rebuildGo P fuel (.inr (nid, rest)) store'' memo'

/-- `aux(subset)` of `Hopcroft.__call__` (entry point of `rebuildGo`). -/
def rebuild (P : List (Finset ℕ)) (fuel : ℕ) (b : Finset ℕ)
    (store : Store) (memo : List (Finset ℕ × ℕ)) :
    Except Err (Store × List (Finset ℕ × ℕ) × ℕ) :=
  rebuildGo P fuel (.inl b) store memo

/-- Fuel for the rebuild: blocks plus transitions plus slack. -/
def rebuildFuel (store : Store) (P : List (Finset ℕ)) : ℕ :=
  2 * (store.length + totalTrans store + P.length) + 8

/-- `Hopcroft.__call__`: seed the worklist from the initial partition,
refine, then rebuild a fresh `DFA` from the block containing the start
state (the final `DFA(...)` constructor runs `reindex` on the new start,
assigning indices 0,1,… to the freshly created states). -/
def hopcroftCall (store : Store) (start : ℕ) (sigma : List ℕ) :
    Except Err (Store × DFA) :=
  match refineLoop store sigma (2 * store.length + 8) (initial_partition store start)
      (seedW (initial_partition store start)) with
  | none => .error .fuelOut
  | some P =>
    match findBlock P start with
    | none => .error .typeError
    | some b0 =>
      match rebuild P (rebuildFuel store P) b0 store [] with
      | .error e => .error e
      | .ok (store₁, _, sid) =>
        .ok ((reindexMany (dfsFuel store₁) store₁ [sid] 0).1,
          ⟨sid, sigma, (reindexMany (dfsFuel store₁) store₁ [sid] 0).2⟩)

/-- `DFA.minimize`: `Hopcroft(self)()`. -/
def minimize (store : Store) (d : DFA) : Except Err (Store × DFA) :=
  hopcroftCall store d.start d.sigma

/-- The full `get_automaton`: mode check, BFS construction, `DFA`
wrapping, then `.minimize()`. -/
def get_automaton (reftable : List (List (Option ℕ))) (tp : String) :
    Except (Err × Store) (Store × DFA) :=
  match build_raw reftable tp with
  | .error e => .error e
  | .ok (store, d) =>
    match minimize store d with
    | .error e => .error (e, store)
    | .ok r => .ok r

/-! ### Spec-side characterization of the builder's transition rule

`specMem` is written from the specification's words (the successor label
is `{i} ∪ { table[j][i] : j ∈ S, defined }`, with the extra union over
`j < i` exactly in shortlex mode), to be compared with what the code
computes. -/

/-- Membership in the successor label demanded by the spec for the
transition of a state labelled `S` under generator `i`. -/
def specMem (table : List (List (Option ℕ))) (tp : String)
    (S : Finset ℕ) (i k : ℕ) : Prop :=
  k = i ∨ (∃ j ∈ S, tableGet table j i = .ok (some k)) ∨
    (tp = "shortlex" ∧ ∃ j < i, tableGet table j i = .ok (some k))

/-- The spec's transition rule at state `sid`, symbol `i`: undefined
when `i` is in the label, otherwise leading to a state whose label is
the `specMem` set. -/
def ruleAt (table : List (List (Option ℕ))) (tp : String)
    (store : Store) (sid i : ℕ) : Prop :=
  ∀ st, getState store sid = some st → ∀ S, st.subset = .set S →
    (i ∈ S → tlookup i st.transitions = none) ∧
    (i ∉ S → ∃ tid st' T, tlookup i st.transitions = some tid ∧
      getState store tid = some st' ∧ st'.subset = .set T ∧
      ∀ k, (k ∈ T ↔ specMem table tp S i k))

/-! ### Invariant predicates used by the minimization theorems -/

/-- Labels of existing objects survive into a later heap. -/
def labelsPreserved (store store' : Store) : Prop :=
  ∀ id st, getState store id = some st →
    ∃ st', getState store' id = some st' ∧ st'.subset = st.subset

/-- Every object at an index `≥ n` (the states freshly created by the
rebuild) is accepting and only points at indices `≥ n`. -/
def NewOk (n : ℕ) (store : Store) : Prop :=
  ∀ id st, getState store id = some st → n ≤ id →
    st.accept = true ∧ ∀ p ∈ st.transitions, n ≤ p.2

/-- Objects at indices `≥ n` only point at indices `≥ n`. -/
def ClosedUp (n : ℕ) (store : Store) : Prop :=
  ∀ id st, getState store id = some st → n ≤ id → ∀ p ∈ st.transitions, n ≤ p.2

/-- Two heaps with the same objects up to their `index` fields. -/
def sameShape (store store' : Store) : Prop :=
  (∀ id, (getState store' id).map DFAState.subset
      = (getState store id).map DFAState.subset) ∧
  (∀ id, (getState store' id).map DFAState.accept
      = (getState store id).map DFAState.accept) ∧
  (∀ id, (getState store' id).map DFAState.transitions
      = (getState store id).map DFAState.transitions)

/-! ### Concrete inputs used by the claim audits -/

/-- A two-state DFA with a non-accepting state: `s0` (accepting,
`0 → s1`) and `s1` (non-accepting, no transitions), as left by the `DFA`
constructor (indices assigned). -/
def exStore1 : Store :=
  [⟨.set ∅, true, some 0, [(0, 1)]⟩, ⟨.set {0}, false, some 1, []⟩]

def exDfa1 : DFA := ⟨0, [0], 2⟩

/-- A three-state DFA mixing accept flags: start `s` (accepting,
`0 → a`, `1 → b`), `a` (accepting, no transitions), `b` (non-accepting,
no transitions). -/
def exStore3 : Store :=
  [⟨.set ∅, true, some 0, [(0, 1), (1, 2)]⟩,
   ⟨.set {0}, true, some 1, []⟩,
   ⟨.set {1}, false, some 2, []⟩]

def exDfa3 : DFA := ⟨0, [0, 1], 3⟩

/-- Components of a successful `minimize`/`get_automaton` outcome. -/
def okStore (r : Except Err (Store × DFA)) : Store :=
  match r with
  | .ok (s, _) => s
  | .error _ => []

def okDfa (r : Except Err (Store × DFA)) : DFA :=
  match r with
  | .ok (_, d) => d
  | .error _ => ⟨0, [], 0⟩

def min1 : Except Err (Store × DFA) := minimize exStore1 exDfa1

def min1Store : Store := okStore min1

def min1Dfa : DFA := okDfa min1

def min3 : Except Err (Store × DFA) := minimize exStore3 exDfa3

def min3Store : Store := okStore min3

def min3Dfa : DFA := okDfa min3

/-- Minimizing the already-minimized three-state example again. -/
def min3b : Except Err (Store × DFA) := minimize min3Store min3Dfa

/-- `get_automaton` on the rank-1 table. -/
def c4res : Except (Err × Store) (Store × DFA) := get_automaton [[none]] "shortlex"

def c4Store : Store :=
  match c4res with
  | .ok (s, _) => s
  | .error _ => []

def c4Dfa : DFA :=
  match c4res with
  | .ok (_, d) => d
  | .error _ => ⟨0, [], 0⟩

/-- `get_automaton` on a rectangular but non-square (2×3) table with a
valid mode. -/
def c5res : Except (Err × Store) (Store × DFA) :=
  get_automaton [[none, none, none], [none, none, none]] "shortlex"

/-- The heap at the moment `get_automaton` raised on the 2×3 table. -/
def c5ErrStore : Store :=
  match c5res with
  | .error (_, s) => s
  | .ok _ => []

/-- The raw automaton of the rank-1 table (used by the C2 witness). -/
def c2res : Except (Err × Store) (Store × DFA) := build_raw [[none]] "shortlex"

def c2Store : Store :=
  match c2res with
  | .ok (s, _) => s
  | .error _ => []

def c2Dfa : DFA :=
  match c2res with
  | .ok (_, d) => d
  | .error _ => ⟨0, [], 0⟩

/-- Invariant of the breadth-first construction: the queue lists (each
once) exactly the created-but-unprocessed states, which have no
transitions yet, and every other created state already satisfies the
spec's transition rule. -/
def InvB (table : List (List (Option ℕ))) (tp : String) (rank : ℕ)
    (store : Store) (queue : List ℕ) : Prop :=
  queue.Nodup ∧
  (∀ q ∈ queue, q < store.length ∧
    ∃ st, getState store q = some st ∧ st.transitions = []) ∧
  (∀ sid, sid < store.length → sid ∉ queue →
    ∀ i, i < rank → ruleAt table tp store sid i)

/-! ## Theorems -/

/-! ### Basic heap and association-list lemmas -/

theorem getState_some_lt {store : Store} {i : ℕ} {st : DFAState}
    (h : getState store i = some st) : i < store.length := by
  by_contra hlt
  rw [getState, List.get?_eq_none.2 (Nat.le_of_not_lt hlt)] at h
  exact Option.noConfusion h

theorem getState_append {store Δ : Store} {i : ℕ} (h : i < store.length) :
    getState (store ++ Δ) i = getState store i := by
  simp only [getState]
  rw [List.get?_eq_getElem?, List.get?_eq_getElem?, List.getElem?_append_left h]

theorem getState_append_self {store : Store} {v : DFAState} :
    getState (store ++ [v]) store.length = some v := by
  simp [getState, List.get?_concat_length]

theorem getState_append_cases (store : Store) (v : DFAState) (i : ℕ) :
    getState (store ++ [v]) i =
      if i < store.length then getState store i
      else if i = store.length then some v else none := by
  by_cases h₁ : i < store.length
  · simp [h₁, getState_append]
  · by_cases h₂ : i = store.length
    · subst h₂; simp [h₁, getState_append_self]
    · simp only [h₁, h₂, if_false, getState]
      rw [List.get?_eq_none]
      rw [List.length_append, List.length_singleton]
      omega

theorem getState_set_self {store : Store} {i : ℕ} {v : DFAState}
    (h : i < store.length) : getState (setState store i v) i = some v := by
  induction store generalizing i with
  | nil => simp at h
  | cons a l ih =>
    cases i with
    | zero => rfl
    | succ i => exact ih (by simpa using h)

theorem getState_set_ne {store : Store} {i j : ℕ} {v : DFAState}
    (h : i ≠ j) : getState (setState store i v) j = getState store j := by
  induction store generalizing i j with
  | nil => rfl
  | cons a l ih =>
    cases i with
    | zero => cases j with
      | zero => exact absurd rfl h
      | succ j => rfl
    | succ i => cases j with
      | zero => rfl
      | succ j => exact ih (by omega)

theorem length_setState (store : Store) (i : ℕ) (v : DFAState) :
    (setState store i v).length = store.length := by
  simp [setState]

theorem tlookup_none_iff {k : ℕ} {l : List (ℕ × ℕ)} :
    tlookup k l = none ↔ k ∉ l.map Prod.fst := by
  induction l with
  | nil => simp [tlookup]
  | cons p rest ih =>
    obtain ⟨k', v⟩ := p
    by_cases h : k' = k <;> simp [tlookup, h, ih] <;> tauto

theorem tlookup_mem {k v : ℕ} {l : List (ℕ × ℕ)}
    (h : tlookup k l = some v) : (k, v) ∈ l := by
  induction l with
  | nil => exact Option.noConfusion h
  | cons p rest ih =>
    obtain ⟨k', v'⟩ := p
    by_cases hk : k' = k
    · subst hk
      simp [tlookup] at h
      simp [h]
    · simp [tlookup, hk] at h
      exact List.mem_cons_of_mem _ (ih h)

theorem tlookup_append_none {k : ℕ} {l₁ l₂ : List (ℕ × ℕ)}
    (h : tlookup k l₁ = none) : tlookup k (l₁ ++ l₂) = tlookup k l₂ := by
  induction l₁ with
  | nil => rfl
  | cons p rest ih =>
    obtain ⟨k', v⟩ := p
    by_cases hk : k' = k
    · simp [tlookup, hk] at h
    · simp [tlookup, hk] at h ⊢
      exact ih h

theorem tlookup_snoc_ne {k i v : ℕ} {l : List (ℕ × ℕ)} (h : k ≠ i) :
    tlookup k (l ++ [(i, v)]) = tlookup k l := by
  induction l with
  | nil =>
    simp only [List.nil_append, tlookup]
    rw [if_neg (Ne.symm h)]
  | cons p rest ih =>
    obtain ⟨k', v'⟩ := p
    by_cases hk : k' = k <;> simp [tlookup, hk, ih]

theorem tlookup_snoc_self {i v : ℕ} {l : List (ℕ × ℕ)}
    (h : tlookup i l = none) : tlookup i (l ++ [(i, v)]) = some v := by
  rw [tlookup_append_none h]; simp [tlookup]

/-! ### Claim C6 -/

/-- Claim C6 (confirmed): `add_transition` raises a `ValueError` when a
transition for the symbol is already registered (leaving the state as it
was, since no updated state is produced), and on success extends the
map with the new pair, keeping at most one transition per symbol (the
key list stays duplicate-free). -/
theorem c6_add_transition_guard (s : DFAState) (symbol target : ℕ) :
    ((tlookup symbol s.transitions).isSome = true →
      add_transition s symbol target = .error .transitionError) ∧
    (∀ s', add_transition s symbol target = .ok s' →
      tlookup symbol s.transitions = none ∧
      s'.transitions = s.transitions ++ [(symbol, target)] ∧
      tlookup symbol s'.transitions = some target ∧
      ((s.transitions.map Prod.fst).Nodup →
        (s'.transitions.map Prod.fst).Nodup)) := by
  constructor
  · intro h
    simp [add_transition, h]
  · intro s' h
    by_cases hs : (tlookup symbol s.transitions).isSome = true
    · simp [add_transition, hs] at h
    · have hnone : tlookup symbol s.transitions = none :=
        Option.not_isSome_iff_eq_none.1 (by simpa using hs)
      simp [add_transition, hs] at h
      refine ⟨hnone, ?_, ?_, ?_⟩
      · rw [← h]
      · rw [← h]; exact tlookup_snoc_self hnone
      · intro hnd
        rw [← h]
        simp only [List.map_append, List.map_cons, List.map_nil]
        rw [List.nodup_append]
        refine ⟨hnd, List.nodup_singleton _, ?_⟩
        intro a ha hb
        simp at hb
        subst hb
        exact (tlookup_none_iff.1 hnone) ha

/-! ### Characterization of the builder's transition computation -/

theorem mem_fsetAsc {S : Finset ℕ} {x : ℕ} : x ∈ fsetAsc S ↔ x ∈ S := by
  simp only [fsetAsc, List.mem_filter, List.mem_range, decide_eq_true_eq]
  constructor
  · exact fun h => h.2
  · intro h
    refine ⟨Nat.lt_succ_of_le ?_, h⟩
    simpa using Finset.single_le_sum (f := id) (fun i _ => Nat.zero_le i) h

theorem addRoots_mem (table : List (List (Option ℕ))) (i : ℕ) :
    ∀ (js : List ℕ) (acc r : Finset ℕ),
      addRoots table i js acc = .ok r →
      ∀ k, (k ∈ r ↔ k ∈ acc ∨ ∃ j ∈ js, tableGet table j i = .ok (some k)) := by
  intro js
  induction js with
  | nil =>
    intro acc r h k
    simp only [addRoots] at h
    cases h
    simp
  | cons j js ih =>
    intro acc r h k
    simp only [addRoots] at h
    cases hjg : tableGet table j i with
    | error e => rw [hjg] at h; exact Except.noConfusion h
    | ok v =>
      rw [hjg] at h
      cases v with
      | none =>
        rw [ih acc r h k]
        constructor
        · rintro (ha | ⟨j', hj', hg⟩)
          · exact Or.inl ha
          · exact Or.inr ⟨j', List.mem_cons_of_mem _ hj', hg⟩
        · rintro (ha | ⟨j', hj', hg⟩)
          · exact Or.inl ha
          · rcases List.mem_cons.1 hj' with rfl | hj'
            · rw [hjg] at hg
              cases hg
            · exact Or.inr ⟨j', hj', hg⟩
      | some k₀ =>
        rw [ih _ r h k]
        simp only [Finset.mem_insert]
        constructor
        · rintro ((rfl | ha) | ⟨j', hj', hg⟩)
          · exact Or.inr ⟨j, List.mem_cons_self _ _, hjg⟩
          · exact Or.inl ha
          · exact Or.inr ⟨j', List.mem_cons_of_mem _ hj', hg⟩
        · rintro (ha | ⟨j', hj', hg⟩)
          · exact Or.inl (Or.inr ha)
          · rcases List.mem_cons.1 hj' with rfl | hj'
            · rw [hjg] at hg
              cases hg
              exact Or.inl (Or.inl rfl)
            · exact Or.inr ⟨j', hj', hg⟩

theorem subset_transition_ok_none {table : List (List (Option ℕ))}
    {tp : String} {l : Label} {i : ℕ}
    (h : subset_transition table tp l i = .ok none) :
    ∃ S, l = .set S ∧ i ∈ S := by
  cases l with
  | boolean b => exact Except.noConfusion h
  | set S =>
    refine ⟨S, rfl, ?_⟩
    by_contra hi
    simp only [subset_transition, hi, if_false] at h
    cases ha : addRoots table i (fsetAsc S) {i} with
    | error e => rw [ha] at h; exact Except.noConfusion h
    | ok r₁ =>
      rw [ha] at h
      by_cases htp : tp = "shortlex"
      · simp only [htp, if_true] at h
        cases hb : addRoots table i (List.range i) r₁ with
        | error e => rw [hb] at h; exact Except.noConfusion h
        | ok r₂ => rw [hb] at h; cases h
      · simp only [htp, if_false] at h
        cases h

theorem subset_transition_ok_some {table : List (List (Option ℕ))}
    {tp : String} {l : Label} {i : ℕ} {T : Finset ℕ}
    (h : subset_transition table tp l i = .ok (some T)) :
    ∃ S, l = .set S ∧ i ∉ S ∧ ∀ k, (k ∈ T ↔ specMem table tp S i k) := by
  cases l with
  | boolean b => exact Except.noConfusion h
  | set S =>
    by_cases hi : i ∈ S
    · simp only [subset_transition, hi, if_true] at h
      cases h
    · refine ⟨S, rfl, hi, ?_⟩
      simp only [subset_transition, hi, if_false] at h
      cases ha : addRoots table i (fsetAsc S) {i} with
      | error e => rw [ha] at h; exact Except.noConfusion h
      | ok r₁ =>
        rw [ha] at h
        have h₁ : ∀ k, (k ∈ r₁ ↔ k = i ∨ ∃ j ∈ S, tableGet table j i = .ok (some k)) := by
          intro k
          rw [addRoots_mem table i _ _ _ ha k]
          simp only [Finset.mem_singleton]
          constructor
          · rintro (rfl | ⟨j, hj, hg⟩)
            · exact Or.inl rfl
            · exact Or.inr ⟨j, mem_fsetAsc.1 hj, hg⟩
          · rintro (rfl | ⟨j, hj, hg⟩)
            · exact Or.inl rfl
            · exact Or.inr ⟨j, mem_fsetAsc.2 hj, hg⟩
        by_cases htp : tp = "shortlex"
        · simp only [htp, if_true] at h
          cases hb : addRoots table i (List.range i) r₁ with
          | error e => rw [hb] at h; exact Except.noConfusion h
          | ok r₂ =>
            rw [hb] at h
            cases h
            intro k
            rw [addRoots_mem table i _ _ _ hb k]
            unfold specMem
            rw [h₁ k]
            constructor
            · rintro ((rfl | hS) | ⟨j, hj, hg⟩)
              · exact Or.inl rfl
              · exact Or.inr (Or.inl hS)
              · exact Or.inr (Or.inr ⟨htp, j, List.mem_range.1 hj, hg⟩)
            · rintro (rfl | hS | ⟨_, j, hj, hg⟩)
              · exact Or.inl (Or.inl rfl)
              · exact Or.inl (Or.inr hS)
              · exact Or.inr ⟨j, List.mem_range.2 hj, hg⟩
        · simp only [htp, if_false] at h
          cases h
          intro k
          unfold specMem
          rw [h₁ k]
          constructor
          · rintro (rfl | hS)
            · exact Or.inl rfl
            · exact Or.inr (Or.inl hS)
          · rintro (rfl | hS | ⟨hshort, _⟩)
            · exact Or.inl rfl
            · exact Or.inr hS
            · exact absurd hshort htp

/-! ### Lookup and heap-update specifications -/

theorem findLabelAux_spec :
    ∀ (l : List DFAState) (lab : Label) (k tid : ℕ),
      findLabelAux l lab k = some tid →
      k ≤ tid ∧ ∃ st, l.get? (tid - k) = some st ∧ st.subset = lab := by
  intro l
  induction l with
  | nil => intro lab k tid h; exact Option.noConfusion h
  | cons st rest ih =>
    intro lab k tid h
    simp only [findLabelAux] at h
    by_cases hs : st.subset = lab
    · rw [if_pos hs] at h
      cases h
      exact ⟨le_refl _, st, by simp, hs⟩
    · rw [if_neg hs] at h
      obtain ⟨hk, st', hget, hsub⟩ := ih lab (k + 1) tid h
      refine ⟨by omega, st', ?_, hsub⟩
      have : tid - k = (tid - (k + 1)) + 1 := by omega
      rw [this]
      simpa using hget

theorem findLabel_spec {store : Store} {lab : Label} {tid : ℕ}
    (h : findLabel store lab = some tid) :
    ∃ st, getState store tid = some st ∧ st.subset = lab := by
  obtain ⟨_, st, hget, hsub⟩ := findLabelAux_spec store lab 0 tid h
  exact ⟨st, by simpa [getState] using hget, hsub⟩

theorem addTransStore_ok {store : Store} {sid symbol target : ℕ} {store' : Store}
    (h : addTransStore store sid symbol target = .ok store') :
    ∃ st, getState store sid = some st ∧ tlookup symbol st.transitions = none ∧
      store' = setState store sid
        { st with transitions := st.transitions ++ [(symbol, target)] } := by
  unfold addTransStore at h
  split at h
  · exact Except.noConfusion h
  · rename_i st hg
    split at h
    · exact Except.noConfusion h
    · rename_i s' hadd
      cases h
      unfold add_transition at hadd
      split at hadd
      · exact Except.noConfusion hadd
      · rename_i hl
        cases hadd
        exact ⟨st, hg, Option.not_isSome_iff_eq_none.1 (by simpa using hl), rfl⟩

theorem memoLookup_mem {b : Finset ℕ} {memo : List (Finset ℕ × ℕ)} {tid : ℕ}
    (h : memoLookup b memo = some tid) : (b, tid) ∈ memo := by
  induction memo with
  | nil => exact Option.noConfusion h
  | cons p rest ih =>
    obtain ⟨k, v⟩ := p
    by_cases hk : k = b
    · subst hk
      simp only [memoLookup, if_pos rfl] at h
      cases h
      exact List.mem_cons_self _ _
    · simp only [memoLookup, if_neg hk] at h
      exact List.mem_cons_of_mem _ (ih h)

/-! ### Transport lemmas for the transition rule -/

theorem labelsPreserved_refl (store : Store) : labelsPreserved store store :=
  fun _ st h => ⟨st, h, rfl⟩

theorem labelsPreserved_trans {s₁ s₂ s₃ : Store}
    (h₁ : labelsPreserved s₁ s₂) (h₂ : labelsPreserved s₂ s₃) :
    labelsPreserved s₁ s₃ := by
  intro id st h
  obtain ⟨st', h', e'⟩ := h₁ id st h
  obtain ⟨st'', h'', e''⟩ := h₂ id st' h'
  exact ⟨st'', h'', e''.trans e'⟩

theorem labelsPreserved_set {store : Store} {sid : ℕ} {st v : DFAState}
    (hg : getState store sid = some st) (hv : v.subset = st.subset) :
    labelsPreserved store (setState store sid v) := by
  intro id st₀ h
  by_cases hid : sid = id
  · subst hid
    rw [hg] at h
    cases h
    exact ⟨v, getState_set_self (getState_some_lt hg), hv⟩
  · exact ⟨st₀, by rw [getState_set_ne hid]; exact h, rfl⟩

theorem labelsPreserved_append (store : Store) (Δ : Store) :
    labelsPreserved store (store ++ Δ) := by
  intro id st h
  exact ⟨st, by rw [getState_append (getState_some_lt h)]; exact h, rfl⟩

theorem ruleAt_mono {table : List (List (Option ℕ))} {tp : String}
    {store store' : Store} {sid i : ℕ}
    (h : ruleAt table tp store sid i)
    (hrec : getState store' sid = getState store sid)
    (hlab : labelsPreserved store store') :
    ruleAt table tp store' sid i := by
  intro st hst S hS
  rw [hrec] at hst
  obtain ⟨h₁, h₂⟩ := h st hst S hS
  refine ⟨h₁, fun hi => ?_⟩
  obtain ⟨tid, st', T, hl, hg, hsub, hchar⟩ := h₂ hi
  obtain ⟨st'', hg'', hsub''⟩ := hlab tid st' hg
  exact ⟨tid, st'', T, hl, hg'', hsub''.trans hsub, hchar⟩

/-! ### The breadth-first construction satisfies the spec's rule -/

/-- Processing the dequeued state `sid` for the symbols `is` establishes
the spec's transition rule at `sid` for those symbols, only rewrites the
heap at `sid` (plus fresh appended states), preserves all labels, and
extends the queue by exactly the freshly created states. -/
theorem processSyms_ok (table : List (List (Option ℕ))) (tp : String) (sid : ℕ) :
    ∀ (is : List ℕ) (store : Store) (queue : List ℕ) (store' : Store)
      (queue' : List ℕ) (st : DFAState),
      processSyms table tp sid is store queue = .ok (store', queue') →
      is.Nodup →
      getState store sid = some st →
      (∀ i ∈ is, tlookup i st.transitions = none) →
      (∀ i ∈ is, ruleAt table tp store' sid i) ∧
      (∀ id, id ≠ sid → id < store.length → getState store' id = getState store id) ∧
      labelsPreserved store store' ∧
      store.length ≤ store'.length ∧
      (∃ st', getState store' sid = some st' ∧ st'.subset = st.subset ∧
        ∀ i', i' ∉ is → tlookup i' st'.transitions = tlookup i' st.transitions) ∧
      (∃ fresh, queue' = queue ++ fresh ∧ fresh.Nodup ∧
        (∀ q ∈ fresh, store.length ≤ q ∧ q < store'.length ∧
          ∃ stq Sq, getState store' q = some stq ∧ stq.subset = .set Sq ∧
            stq.transitions = []) ∧
        (∀ id, store.length ≤ id → id < store'.length → id ∈ fresh)) := by
  intro is
  induction is with
  | nil =>
    intro store queue store' queue' st h _ hst _
    simp only [processSyms] at h
    cases h
    refine ⟨by simp, fun _ _ _ => rfl, labelsPreserved_refl store, le_refl _,
      ⟨st, hst, rfl, fun _ _ => rfl⟩,
      ⟨[], by simp, List.nodup_nil, by simp, fun id h1 h2 => absurd h2 (by omega)⟩⟩
  | cons i is' ih =>
    intro store queue store' queue' st h hnd hst hfresh
    have hii : i ∉ is' := (List.nodup_cons.1 hnd).1
    have hnd' : is'.Nodup := (List.nodup_cons.1 hnd).2
    have hli : tlookup i st.transitions = none := hfresh i (List.mem_cons_self i is')
    have hfresh' : ∀ i' ∈ is', tlookup i' st.transitions = none :=
      fun i' hi' => hfresh i' (List.mem_cons_of_mem _ hi')
    have hsidlt : sid < store.length := getState_some_lt hst
    simp only [processSyms] at h
    split at h
    · exact Except.noConfusion h
    · rename_i S hS
      rw [hst] at hS
      injection hS with hSe
      subst hSe
      have hcond : ¬((tlookup i st.transitions).isSome = true) := by rw [hli]; simp
      rw [if_neg hcond] at h
      split at h
      · exact Except.noConfusion h
      · -- `subset_transition` returned `None`: `i` is in the label, no
        -- transition is recorded and the remaining symbols are processed.
        rename_i hse
        obtain ⟨ih1, ih2, ih3, ih4, ih5, ih6⟩ :=
          ih store queue store' queue' st h hnd' hst hfresh'
        obtain ⟨st'', hg'', hsub'', hlk''⟩ := ih5
        refine ⟨?_, ih2, ih3, ih4,
          ⟨st'', hg'', hsub'',
            fun i' hi' => hlk'' i' (fun hm => hi' (List.mem_cons_of_mem _ hm))⟩, ih6⟩
        intro i₀ hi₀
        rcases List.mem_cons.1 hi₀ with rfl | hi₀
        · obtain ⟨S, hlS, hiS⟩ := subset_transition_ok_none hse
          intro st₂ hst₂ S₂ hS₂
          rw [hg''] at hst₂
          injection hst₂ with he2
          subst he2
          have hSS : S₂ = S := by
            have h1 : st''.subset = Label.set S := by rw [hsub'']; exact hlS
            exact Label.set.inj (hS₂.symm.trans h1)
          subst hSS
          refine ⟨fun _ => ?_, fun hni => absurd (by exact hiS) hni⟩
          rw [hlk'' i₀ hii]
          exact hli
        · exact ih1 i₀ hi₀
      · -- `subset_transition` returned a label `t`.
        rename_i t hse
        obtain ⟨S, hlS, hiS, hchar⟩ := subset_transition_ok_some hse
        split at h
        · -- an existing state carries the label: reuse it
          rename_i tid hfind
          split at h
          · exact Except.noConfusion h
          · rename_i store₁ hadd
            obtain ⟨st₀, hg₀, hl₀, hstore₁⟩ := addTransStore_ok hadd
            rw [hst] at hg₀
            injection hg₀ with he0
            subst he0
            subst hstore₁
            have hg₁ : getState
                (setState store sid
                  { st with transitions := st.transitions ++ [(i, tid)] }) sid =
                some { st with transitions := st.transitions ++ [(i, tid)] } :=
              getState_set_self hsidlt
            have hfresh₁ : ∀ i' ∈ is',
                tlookup i'
                  ({ st with transitions := st.transitions ++ [(i, tid)] } :
                    DFAState).transitions = none := by
              intro i' hi'
              have hne : i' ≠ i := fun e => hii (e ▸ hi')
              show tlookup i' (st.transitions ++ [(i, tid)]) = none
              rw [tlookup_snoc_ne hne]
              exact hfresh' i' hi'
            obtain ⟨ih1, ih2, ih3, ih4, ih5, ih6⟩ :=
              ih _ queue store' queue' _ h hnd' hg₁ hfresh₁
            obtain ⟨st'', hg'', hsub'', hlk''⟩ := ih5
            refine ⟨?_, ?_, ?_, ?_, ?_, ?_⟩
            · intro i₀ hi₀
              rcases List.mem_cons.1 hi₀ with rfl | hi₀
              · -- the freshly recorded transition satisfies the rule
                obtain ⟨stt, hgt, hsubt⟩ := findLabel_spec hfind
                have htgt₁ : ∃ stt₁,
                    getState (setState store sid
                      { st with transitions := st.transitions ++ [(i₀, tid)] }) tid =
                      some stt₁ ∧ stt₁.subset = .set t := by
                  by_cases hts : tid = sid
                  · subst hts
                    refine ⟨_, getState_set_self hsidlt, ?_⟩
                    rw [hst] at hgt
                    injection hgt with het
                    subst het
                    exact hsubt
                  · rw [getState_set_ne (fun e => hts e.symm)]
                    exact ⟨stt, hgt, hsubt⟩
                obtain ⟨stt₁, hgt₁, hsubt₁⟩ := htgt₁
                obtain ⟨stt', hgt', hsubt'⟩ := ih3 tid stt₁ hgt₁
                intro st₂ hst₂ S₂ hS₂
                rw [hg''] at hst₂
                injection hst₂ with he2
                subst he2
                have hSS : S₂ = S := by
                  have h1 : st''.subset = Label.set S := by rw [hsub'']; exact hlS
                  exact Label.set.inj (hS₂.symm.trans h1)
                subst hSS
                refine ⟨fun hm => absurd hm hiS, fun _ => ?_⟩
                refine ⟨tid, stt', t, ?_, hgt', hsubt'.trans hsubt₁, hchar⟩
                rw [hlk'' i₀ hii]
                show tlookup i₀ (st.transitions ++ [(i₀, tid)]) = some tid
                exact tlookup_snoc_self hli
              · exact ih1 i₀ hi₀
            · intro id hid hlt
              rw [ih2 id hid (by rw [length_setState]; exact hlt)]
              exact getState_set_ne (fun e => hid e.symm)
            · exact labelsPreserved_trans
                (labelsPreserved_set hst
                  (show ({ st with transitions := st.transitions ++ [(i, tid)] } :
                    DFAState).subset = st.subset from rfl)) ih3
            · rw [← length_setState store sid
                { st with transitions := st.transitions ++ [(i, tid)] }]
              exact ih4
            · exact ⟨st'', hg'', hsub'',
                fun i' hi' => by
                  rw [hlk'' i' (fun hm => hi' (List.mem_cons_of_mem _ hm))]
                  show tlookup i' (st.transitions ++ [(i, tid)]) = tlookup i' st.transitions
                  exact tlookup_snoc_ne (fun e => hi' (e ▸ List.mem_cons_self i is'))⟩
            · obtain ⟨fresh, hq, hnodup, hentries, hcomplete⟩ := ih6
              refine ⟨fresh, hq, hnodup, ?_, ?_⟩
              · intro q hq'
                obtain ⟨hge, hlt, rest⟩ := hentries q hq'
                rw [length_setState] at hge
                exact ⟨hge, hlt, rest⟩
              · intro id hge hlt
                exact hcomplete id (by rw [length_setState]; exact hge) hlt
        · -- no state carries the label: a fresh state is created
          rename_i hfind
          split at h
          · exact Except.noConfusion h
          · rename_i store₂ hadd
            obtain ⟨st₀, hg₀, hl₀, hstore₂⟩ := addTransStore_ok hadd
            rw [getState_append hsidlt, hst] at hg₀
            injection hg₀ with he0
            subst he0
            subst hstore₂
            have hsidlt₁ : sid < (store ++ [(⟨.set t, true, none, []⟩ : DFAState)]).length := by
              rw [List.length_append, List.length_singleton]; omega
            have hlen₂ : (setState (store ++ [(⟨.set t, true, none, []⟩ : DFAState)]) sid
                { st with transitions := st.transitions ++ [(i, store.length)] }).length =
                store.length + 1 := by
              rw [length_setState, List.length_append, List.length_singleton]
            have hg₂ : getState
                (setState (store ++ [(⟨.set t, true, none, []⟩ : DFAState)]) sid
                  { st with transitions := st.transitions ++ [(i, store.length)] }) sid =
                some { st with transitions := st.transitions ++ [(i, store.length)] } :=
              getState_set_self hsidlt₁
            have htid : getState
                (setState (store ++ [(⟨.set t, true, none, []⟩ : DFAState)]) sid
                  { st with transitions := st.transitions ++ [(i, store.length)] })
                store.length = some ⟨.set t, true, none, []⟩ := by
              rw [getState_set_ne (show sid ≠ store.length by omega)]
              exact getState_append_self
            have hne₂ : ∀ id, id ≠ sid → id < store.length →
                getState (setState (store ++ [(⟨.set t, true, none, []⟩ : DFAState)]) sid
                  { st with transitions := st.transitions ++ [(i, store.length)] }) id =
                getState store id := by
              intro id hid hlt
              rw [getState_set_ne (fun e => hid e.symm), getState_append hlt]
            have hfresh₁ : ∀ i' ∈ is',
                tlookup i'
                  ({ st with transitions := st.transitions ++ [(i, store.length)] } :
                    DFAState).transitions = none := by
              intro i' hi'
              have hne : i' ≠ i := fun e => hii (e ▸ hi')
              show tlookup i' (st.transitions ++ [(i, store.length)]) = none
              rw [tlookup_snoc_ne hne]
              exact hfresh' i' hi'
            obtain ⟨ih1, ih2, ih3, ih4, ih5, ih6⟩ :=
              ih _ (queue ++ [store.length]) store' queue' _ h hnd' hg₂ hfresh₁
            obtain ⟨st'', hg'', hsub'', hlk''⟩ := ih5
            have hlen₂' : store.length + 1 ≤ store'.length := by
              rw [← hlen₂]; exact ih4
            refine ⟨?_, ?_, ?_, ?_, ?_, ?_⟩
            · intro i₀ hi₀
              rcases List.mem_cons.1 hi₀ with rfl | hi₀
              · obtain ⟨stt', hgt', hsubt'⟩ := ih3 store.length _ htid
                intro st₂ hst₂ S₂ hS₂
                rw [hg''] at hst₂
                injection hst₂ with he2
                subst he2
                have hSS : S₂ = S := by
                  have h1 : st''.subset = Label.set S := by rw [hsub'']; exact hlS
                  exact Label.set.inj (hS₂.symm.trans h1)
                subst hSS
                refine ⟨fun hm => absurd hm hiS, fun _ => ?_⟩
                refine ⟨store.length, stt', t, ?_, hgt', hsubt', hchar⟩
                rw [hlk'' i₀ hii]
                show tlookup i₀ (st.transitions ++ [(i₀, store.length)]) = some store.length
                exact tlookup_snoc_self hli
              · exact ih1 i₀ hi₀
            · intro id hid hlt
              rw [ih2 id hid (by rw [hlen₂]; omega)]
              exact hne₂ id hid hlt
            · refine labelsPreserved_trans ?_ ih3
              refine labelsPreserved_trans
                (labelsPreserved_append store [⟨.set t, true, none, []⟩]) ?_
              exact labelsPreserved_set (by rw [getState_append hsidlt]; exact hst)
                (show ({ st with transitions := st.transitions ++ [(i, store.length)] } :
                  DFAState).subset = st.subset from rfl)
            · omega
            · exact ⟨st'', hg'', hsub'',
                fun i' hi' => by
                  rw [hlk'' i' (fun hm => hi' (List.mem_cons_of_mem _ hm))]
                  show tlookup i' (st.transitions ++ [(i, store.length)]) =
                    tlookup i' st.transitions
                  exact tlookup_snoc_ne (fun e => hi' (e ▸ List.mem_cons_self i is'))⟩
            · obtain ⟨fresh', hq, hnodup, hentries, hcomplete⟩ := ih6
              have hfge : ∀ q ∈ fresh', store.length + 1 ≤ q := by
                intro q hq'
                have := (hentries q hq').1
                rw [hlen₂] at this
                exact this
              refine ⟨store.length :: fresh', ?_, ?_, ?_, ?_⟩
              · rw [hq]; simp
              · exact List.nodup_cons.2
                  ⟨fun hm => by have := hfge _ hm; omega, hnodup⟩
              · intro q hq'
                rcases List.mem_cons.1 hq' with rfl | hq'
                · refine ⟨le_refl _, by omega, ⟨.set t, true, none, []⟩, t, ?_, rfl, rfl⟩
                  rw [ih2 store.length (by omega) (by rw [hlen₂]; omega)]
                  exact htid
                · obtain ⟨hge, hlt, rest⟩ := hentries q hq'
                  rw [hlen₂] at hge
                  exact ⟨by omega, hlt, rest⟩
              · intro id hge hlt
                by_cases hid : id = store.length
                · exact hid ▸ List.mem_cons_self _ _
                · refine List.mem_cons_of_mem _ (hcomplete id ?_ hlt)
                  rw [hlen₂]
                  omega

/-- The BFS loop, run to completion from a heap satisfying `InvB`,
leaves every state satisfying the spec's transition rule. -/
theorem bfsLoop_ruleAt (table : List (List (Option ℕ))) (tp : String) (rank : ℕ) :
    ∀ (fuel : ℕ) (store : Store) (queue : List ℕ) (store' : Store),
      InvB table tp rank store queue →
      bfsLoop table tp rank fuel store queue = .ok store' →
      ∀ sid, sid < store'.length → ∀ i, i < rank → ruleAt table tp store' sid i := by
  intro fuel
  induction fuel with
  | zero =>
    intro store queue store' _ h
    exact Except.noConfusion h
  | succ fuel ihf =>
    intro store queue store' hinv h
    cases queue with
    | nil =>
      simp only [bfsLoop] at h
      cases h
      exact fun sid hlt i hi => hinv.2.2 sid hlt (by simp) i hi
    | cons sid rest =>
      simp only [bfsLoop] at h
      split at h
      · exact Except.noConfusion h
      · rename_i store₁ queue₁ hp
        obtain ⟨hq, hrec, hproc⟩ := hinv
        obtain ⟨hqlt, st, hst, htr⟩ := hrec sid (List.mem_cons_self _ _)
        have hfreshnil : ∀ i ∈ List.range rank, tlookup i st.transitions = none := by
          intro i _
          rw [htr]
          rfl
        obtain ⟨p1, p2, p3, p4, p5, p6⟩ :=
          processSyms_ok table tp sid (List.range rank) store rest store₁ queue₁ st hp
            (List.nodup_range rank) hst hfreshnil
        obtain ⟨fresh, hq₁, hfnd, hfent, hfcomp⟩ := p6
        have hsidnotin : sid ∉ rest := (List.nodup_cons.1 hq).1
        have hinv₁ : InvB table tp rank store₁ queue₁ := by
          refine ⟨?_, ?_, ?_⟩
          · rw [hq₁]
            refine List.Nodup.append ((List.nodup_cons.1 hq).2) hfnd ?_
            intro a ha hb
            obtain ⟨halt, _⟩ := hrec a (List.mem_cons_of_mem _ ha)
            have := (hfent a hb).1
            omega
          · intro q hq'
            rw [hq₁] at hq'
            rcases List.mem_append.1 hq' with hq' | hq'
            · obtain ⟨halt, stq, hgq, htq⟩ := hrec q (List.mem_cons_of_mem _ hq')
              have hne : q ≠ sid := fun e => hsidnotin (e ▸ hq')
              refine ⟨by omega, stq, ?_, htq⟩
              rw [p2 q hne halt]
              exact hgq
            · obtain ⟨hge, hlt, stq, Sq, hgq, hsq, htq⟩ := hfent q hq'
              exact ⟨hlt, stq, hgq, htq⟩
          · intro sid₂ hlt₂ hnin i hi
            by_cases hs : sid₂ = sid
            · subst hs
              exact p1 i (List.mem_range.2 hi)
            · by_cases hlt₂' : sid₂ < store.length
              · have hninr : sid₂ ∉ rest := fun hm =>
                  hnin (by rw [hq₁]; exact List.mem_append.2 (Or.inl hm))
                have hold := hproc sid₂ hlt₂' (by
                  intro hm
                  rcases List.mem_cons.1 hm with he | hm
                  exacts [hs he, hninr hm])
                exact ruleAt_mono (hold i hi) (p2 sid₂ hs hlt₂') p3
              · exfalso
                have hmem : sid₂ ∈ fresh := hfcomp sid₂ (by omega) hlt₂
                exact hnin (by rw [hq₁]; exact List.mem_append.2 (Or.inr hmem))
        exact ihf store₁ queue₁ store' hinv₁ h

/-! ### `reindex` only writes `index` fields -/

theorem sameShape_refl (store : Store) : sameShape store store :=
  ⟨fun _ => rfl, fun _ => rfl, fun _ => rfl⟩

theorem sameShape_trans {s₁ s₂ s₃ : Store}
    (h₁ : sameShape s₁ s₂) (h₂ : sameShape s₂ s₃) : sameShape s₁ s₃ :=
  ⟨fun id => (h₂.1 id).trans (h₁.1 id),
   fun id => (h₂.2.1 id).trans (h₁.2.1 id),
   fun id => (h₂.2.2 id).trans (h₁.2.2 id)⟩

theorem setState_shape {store : Store} {sid : ℕ} {st v : DFAState}
    (hg : getState store sid = some st)
    (h1 : v.subset = st.subset) (h2 : v.accept = st.accept)
    (h3 : v.transitions = st.transitions) :
    sameShape store (setState store sid v) := by
  have hlt : sid < store.length := getState_some_lt hg
  refine ⟨fun id => ?_, fun id => ?_, fun id => ?_⟩ <;>
    by_cases hid : sid = id
  · subst hid; rw [getState_set_self hlt, hg]; simp [h1]
  · rw [getState_set_ne hid]
  · subst hid; rw [getState_set_self hlt, hg]; simp [h2]
  · rw [getState_set_ne hid]
  · subst hid; rw [getState_set_self hlt, hg]; simp [h3]
  · rw [getState_set_ne hid]

theorem reindexMany_shape :
    ∀ (fuel : ℕ) (store : Store) (sids : List ℕ) (next : ℕ),
      sameShape store (reindexMany fuel store sids next).1 := by
  intro fuel
  induction fuel with
  | zero => intro store sids next; exact sameShape_refl store
  | succ fuel ihf =>
    intro store sids next
    cases sids with
    | nil => exact sameShape_refl store
    | cons sid rest =>
      simp only [reindexMany]
      cases hg : getState store sid with
      | none =>
        simp only [hg]
        exact ihf store rest next
      | some st =>
        simp only [hg]
        cases hidx : st.index with
        | some n =>
          simp only [hidx]
          exact ihf store rest next
        | none =>
          simp only [hidx]
          exact sameShape_trans
            (sameShape_trans
              (setState_shape hg
                (show ({ st with index := some next } : DFAState).subset = st.subset from rfl)
                (show ({ st with index := some next } : DFAState).accept = st.accept from rfl)
                (show ({ st with index := some next } : DFAState).transitions =
                  st.transitions from rfl))
              (ihf _ _ _)) (ihf _ _ _)

/-- The spec's transition rule only depends on the shape of the heap. -/
theorem ruleAt_shape {table : List (List (Option ℕ))} {tp : String}
    {store store' : Store} {sid i : ℕ}
    (h : ruleAt table tp store sid i) (hs : sameShape store store') :
    ruleAt table tp store' sid i := by
  intro st₂ hst₂ S₂ hS₂
  have h1 := hs.1 sid
  have h2 := hs.2.2 sid
  rw [hst₂] at h1 h2
  cases hg : getState store sid with
  | none => rw [hg] at h1; simp at h1
  | some st₀ =>
    rw [hg] at h1 h2
    simp only [Option.map_some'] at h1 h2
    injection h1 with h1
    injection h2 with h2
    obtain ⟨c1, c2⟩ := h st₀ hg S₂ (by rw [← h1]; exact hS₂)
    refine ⟨fun hm => ?_, fun hm => ?_⟩
    · rw [h2]
      exact c1 hm
    · obtain ⟨tid, st', T, hl, hgt, hsubt, hchar⟩ := c2 hm
      have h3 := hs.1 tid
      rw [hgt] at h3
      cases hg' : getState store' tid with
      | none => rw [hg'] at h3; simp at h3
      | some stt' =>
        rw [hg'] at h3
        simp only [Option.map_some'] at h3
        injection h3 with h3
        exact ⟨tid, stt', T, by rw [h2]; exact hl, hg', by rw [h3]; exact hsubt, hchar⟩

/-! ### Claim C2 -/

/-- Claim C2 (confirmed): in the raw automaton produced by the
breadth-first construction (that is, whenever `build_raw` succeeds), for
every state and every generator `i` below the rank: if `i` is a member
of the state's label the transition on `i` is undefined, and otherwise
the transition on `i` leads to a state whose label is exactly
`{i} ∪ { table[j][i] : j ∈ S, defined }`, with the additional union
over `j < i` exactly when the mode is shortlex (`specMem` spells out
that set, transcribed from the specification). -/
theorem c2_builder_transition_rule (table : List (List (Option ℕ)))
    (tp : String) (store : Store) (d : DFA)
    (h : build_raw table tp = .ok (store, d)) :
    ∀ sid st, getState store sid = some st → ∀ S, st.subset = .set S →
      ∀ i, i < tableRank table →
        (i ∈ S → tlookup i st.transitions = none) ∧
        (i ∉ S → ∃ tid st' T, tlookup i st.transitions = some tid ∧
          getState store tid = some st' ∧ st'.subset = .set T ∧
          ∀ k, (k ∈ T ↔ specMem table tp S i k)) := by
  unfold build_raw at h
  split at h
  · split at h
    · exact Except.noConfusion h
    · rename_i store₀ hb
      cases h
      have hinv : InvB table tp (tableRank table)
          [⟨.set ∅, true, none, []⟩] [0] := by
        refine ⟨List.nodup_singleton 0, ?_, ?_⟩
        · intro q hq
          simp only [List.mem_singleton] at hq
          subst hq
          exact ⟨by simp, ⟨.set ∅, true, none, []⟩, rfl, rfl⟩
        · intro sid hlt hnin i hi
          exfalso
          apply hnin
          simp only [List.length_singleton] at hlt
          interval_cases sid
          simp
      have hrule := bfsLoop_ruleAt table tp (tableRank table) (bfsFuel table)
        [⟨.set ∅, true, none, []⟩] [0] store₀ hinv hb
      have hshape := reindexMany_shape (dfsFuel store₀) store₀ [0] 0
      intro sid st hstget S hS i hi
      have hlt : sid < store₀.length := by
        have h1 := hshape.1 sid
        rw [hstget] at h1
        cases hg : getState store₀ sid with
        | none => rw [hg] at h1; simp at h1
        | some st₀ => exact getState_some_lt hg
      exact (ruleAt_shape (hrule sid hlt i hi) hshape) st hstget S hS
  · exact Except.noConfusion h

/-- Witness for C2 on the rank-1 table: at the start state (label `∅`)
and generator 0, the transition is defined and leads to the state
labelled by the spec's successor set. -/
theorem c2_builder_transition_rule_witness :
    ((0 : ℕ) ∈ (∅ : Finset ℕ) →
      tlookup 0 [((0 : ℕ), (1 : ℕ))] = none) ∧
    ((0 : ℕ) ∉ (∅ : Finset ℕ) →
      ∃ tid st' T, tlookup 0 [((0 : ℕ), (1 : ℕ))] = some tid ∧
        getState c2Store tid = some st' ∧ st'.subset = .set T ∧
        ∀ k, (k ∈ T ↔ specMem [[none]] "shortlex" ∅ 0 k)) :=
  c2_builder_transition_rule [[none]] "shortlex" c2Store c2Dfa (by decide) 0
    ⟨.set ∅, true, some 0, [(0, 1)]⟩ (by decide) ∅ rfl 0 (by decide)

/-! ### The rebuild step creates only fresh, accepting, inward-pointing
states and never touches the input heap -/

theorem NewOk.closedUp {n : ℕ} {store : Store} (h : NewOk n store) :
    ClosedUp n store :=
  fun id st hg hid => (h id st hg hid).2

theorem NewOk_shape {n : ℕ} {store store' : Store}
    (h : NewOk n store) (hs : sameShape store store') : NewOk n store' := by
  intro id st hg hid
  have h1 := hs.2.1 id
  have h2 := hs.2.2 id
  rw [hg] at h1 h2
  cases hg₀ : getState store id with
  | none => rw [hg₀] at h1; simp at h1
  | some st₀ =>
    rw [hg₀] at h1 h2
    simp only [Option.map_some'] at h1 h2
    injection h1 with h1
    injection h2 with h2
    obtain ⟨ha, ht⟩ := h id st₀ hg₀ hid
    exact ⟨by rw [h1]; exact ha, by rw [h2]; exact ht⟩

theorem ClosedUp_shape {n : ℕ} {store store' : Store}
    (h : ClosedUp n store) (hs : sameShape store store') : ClosedUp n store' := by
  intro id st hg hid
  have h2 := hs.2.2 id
  rw [hg] at h2
  cases hg₀ : getState store id with
  | none => rw [hg₀] at h2; simp at h2
  | some st₀ =>
    rw [hg₀] at h2
    simp only [Option.map_some'] at h2
    injection h2 with h2
    rw [h2]
    exact h id st₀ hg₀ hid

/-- Heap discipline of `aux`/`rebuildGo` when started on a heap of
length `≥ n` whose region `≥ n` is `NewOk`: the heap below `n` (the
input DFA's states) is untouched, the region `≥ n` stays `NewOk`
(accepting states pointing only at indices `≥ n`), the memo only maps
to fresh indices, and the returned state is fresh. -/
theorem rebuildGo_spec (P : List (Finset ℕ)) (n : ℕ) :
    ∀ (fuel : ℕ) (task : Finset ℕ ⊕ ℕ × List (ℕ × ℕ)) (store : Store)
      (memo : List (Finset ℕ × ℕ)) (store' : Store)
      (memo' : List (Finset ℕ × ℕ)) (rid : ℕ),
      n ≤ store.length → NewOk n store →
      (∀ p ∈ memo, n ≤ (p : Finset ℕ × ℕ).2 ∧ p.2 < store.length) →
      (∀ nid ts, task = .inr (nid, ts) → n ≤ nid ∧ nid < store.length) →
      rebuildGo P fuel task store memo = .ok (store', memo', rid) →
      (∀ i, i < n → getState store' i = getState store i) ∧
      NewOk n store' ∧ store.length ≤ store'.length ∧
      (∀ p ∈ memo', n ≤ (p : Finset ℕ × ℕ).2 ∧ p.2 < store'.length) ∧
      n ≤ rid ∧ rid < store'.length := by
  intro fuel
  induction fuel with
  | zero =>
    intro task store memo store' memo' rid _ _ _ _ h
    exact Except.noConfusion h
  | succ fuel ihf =>
    intro task store memo store' memo' rid hn hNew hmemo htask h
    cases task with
    | inl b =>
      simp only [rebuildGo] at h
      split at h
      · exact Except.noConfusion h
      · rename_i rep hrep
        split at h
        · exact Except.noConfusion h
        · rename_i repSt hgrep
          split at h
          · exact Except.noConfusion h
          · rename_i store₂ memo₂ rid₂ hrec
            cases h
            have hlen₁ :
                (store ++ [(⟨.boolean repSt.accept, true, none, []⟩ : DFAState)]).length =
                  store.length + 1 := by simp
            have hNew₁ : NewOk n
                (store ++ [(⟨.boolean repSt.accept, true, none, []⟩ : DFAState)]) := by
              intro id st hg hid
              rw [getState_append_cases] at hg
              split at hg
              · exact hNew id st hg hid
              · split at hg
                · cases hg
                  exact ⟨rfl, by simp⟩
                · exact Option.noConfusion hg
            have hmemo₁ : ∀ p ∈ memo ++ [(b, store.length)],
                n ≤ (p : Finset ℕ × ℕ).2 ∧
                  p.2 < (store ++ [(⟨.boolean repSt.accept, true, none, []⟩ :
                    DFAState)]).length := by
              intro p hp
              rcases List.mem_append.1 hp with hp | hp
              · obtain ⟨h1, h2⟩ := hmemo p hp
                exact ⟨h1, by rw [hlen₁]; omega⟩
              · simp only [List.mem_singleton] at hp
                subst hp
                exact ⟨hn, by rw [hlen₁]; omega⟩
            obtain ⟨q1, q2, q3, q4, q5, q6⟩ :=
              ihf (.inr (store.length, repSt.transitions)) _ _ store' memo' rid₂
                (by rw [hlen₁]; omega) hNew₁ hmemo₁
                (by
                  intro nid ts he
                  injection he with he
                  injection he with ha hb
                  subst ha
                  exact ⟨hn, by rw [hlen₁]; omega⟩) hrec
            have h3 : store.length + 1 ≤ store'.length := by rw [← hlen₁]; exact q3
            refine ⟨?_, q2, by omega, q4, hn, by omega⟩
            intro i hi
            rw [q1 i hi, getState_append (by omega)]
    | inr pr =>
      obtain ⟨nid, ts⟩ := pr
      obtain ⟨hnid, hnidlt⟩ := htask nid ts rfl
      cases ts with
      | nil =>
        simp only [rebuildGo] at h
        cases h
        exact ⟨fun _ _ => rfl, hNew, le_refl _, hmemo, hnid, hnidlt⟩
      | cons p rest =>
        obtain ⟨symbol, target⟩ := p
        simp only [rebuildGo] at h
        split at h
        · exact Except.noConfusion h
        · rename_i tb htb
          split at h
          · -- the target block has already been rebuilt
            rename_i tid hmemolk
            split at h
            · exact Except.noConfusion h
            · rename_i store₁ hadd
              obtain ⟨st₀, hg₀, hl₀, hstore₁⟩ := addTransStore_ok hadd
              subst hstore₁
              have htid := hmemo _ (memoLookup_mem hmemolk)
              have hNew₁ : NewOk n (setState store nid
                  { st₀ with transitions := st₀.transitions ++ [(symbol, tid)] }) := by
                intro id st hg hid
                by_cases hidn : nid = id
                · subst hidn
                  rw [getState_set_self (getState_some_lt hg₀)] at hg
                  cases hg
                  obtain ⟨ha, ht⟩ := hNew nid st₀ hg₀ hnid
                  refine ⟨ha, ?_⟩
                  intro q hq
                  rcases List.mem_append.1 hq with hq | hq
                  · exact ht q hq
                  · simp only [List.mem_singleton] at hq
                    rw [hq]
                    exact htid.1
                · rw [getState_set_ne hidn] at hg
                  exact hNew id st hg hid
              have hlen₁ : (setState store nid
                  { st₀ with transitions := st₀.transitions ++ [(symbol, tid)] }).length =
                  store.length := length_setState _ _ _
              obtain ⟨q1, q2, q3, q4, q5, q6⟩ :=
                ihf (.inr (nid, rest)) _ memo store' memo' rid
                  (by rw [hlen₁]; exact hn) hNew₁
                  (fun p hp => ⟨(hmemo p hp).1, by rw [hlen₁]; exact (hmemo p hp).2⟩)
                  (by
                    intro nid' ts' he
                    injection he with he
                    injection he with ha hb
                    subst ha
                    exact ⟨hnid, by rw [hlen₁]; exact hnidlt⟩) h
              refine ⟨?_, q2, by rw [hlen₁] at q3; exact q3, ?_, q5, q6⟩
              · intro i hi
                rw [q1 i hi]
                exact getState_set_ne (by omega)
              · intro p hp
                exact q4 p hp
          · -- unseen target block: recursive `aux`
            rename_i hmemolk
            split at h
            · exact Except.noConfusion h
            · rename_i store₁ memo₁ tid hrecb
              split at h
              · exact Except.noConfusion h
              · rename_i store₂ hadd
                obtain ⟨r1, r2, r3, r4, r5, r6⟩ :=
                  ihf (.inl tb) store memo store₁ memo₁ tid hn hNew hmemo
                    (by intro _ _ he; exact Sum.noConfusion he) hrecb
                obtain ⟨st₀, hg₀, hl₀, hstore₂⟩ := addTransStore_ok hadd
                subst hstore₂
                have hNew₂ : NewOk n (setState store₁ nid
                    { st₀ with transitions := st₀.transitions ++ [(symbol, tid)] }) := by
                  intro id st hg hid
                  by_cases hidn : nid = id
                  · subst hidn
                    rw [getState_set_self (getState_some_lt hg₀)] at hg
                    cases hg
                    obtain ⟨ha, ht⟩ := r2 nid st₀ hg₀ hnid
                    refine ⟨ha, ?_⟩
                    intro q hq
                    rcases List.mem_append.1 hq with hq | hq
                    · exact ht q hq
                    · simp only [List.mem_singleton] at hq
                      rw [hq]
                      exact r5
                  · rw [getState_set_ne hidn] at hg
                    exact r2 id st hg hid
                have hlen₂ : (setState store₁ nid
                    { st₀ with transitions := st₀.transitions ++ [(symbol, tid)] }).length =
                    store₁.length := length_setState _ _ _
                obtain ⟨q1, q2, q3, q4, q5, q6⟩ :=
                  ihf (.inr (nid, rest)) _ memo₁ store' memo' rid
                    (by rw [hlen₂]; omega) hNew₂
                    (fun p hp => ⟨(r4 p hp).1, by rw [hlen₂]; exact (r4 p hp).2⟩)
                    (by
                      intro nid' ts' he
                      injection he with he
                      injection he with ha hb
                      subst ha
                      exact ⟨hnid, by rw [hlen₂]; omega⟩) h
                rw [hlen₂] at q3
                refine ⟨?_, q2, by omega, q4, q5, q6⟩
                intro i hi
                rw [q1 i hi, getState_set_ne (by omega)]
                exact r1 i hi

/-- `reindex` started on fresh states of an inward-pointing fresh region
never touches the heap below `n`. -/
theorem reindexMany_pres (n : ℕ) :
    ∀ (fuel : ℕ) (store : Store) (sids : List ℕ) (next : ℕ),
      ClosedUp n store → (∀ s ∈ sids, n ≤ s) →
      ∀ i, i < n → getState (reindexMany fuel store sids next).1 i = getState store i := by
  intro fuel
  induction fuel with
  | zero => intro store sids next _ _ i _; rfl
  | succ fuel ihf =>
    intro store sids next hcl hsids i hi
    cases sids with
    | nil => rfl
    | cons sid rest =>
      have hrest : ∀ s ∈ rest, n ≤ s := fun s hs => hsids s (List.mem_cons_of_mem _ hs)
      simp only [reindexMany]
      cases hg : getState store sid with
      | none =>
        simp only [hg]
        exact ihf store rest next hcl hrest i hi
      | some st =>
        simp only [hg]
        cases hidx : st.index with
        | some m =>
          simp only [hidx]
          exact ihf store rest next hcl hrest i hi
        | none =>
          simp only [hidx]
          have hsid : n ≤ sid := hsids sid (List.mem_cons_self _ _)
          have hsh₁ : sameShape store (setState store sid { st with index := some next }) :=
            setState_shape hg
              (show ({ st with index := some next } : DFAState).subset = st.subset from rfl)
              (show ({ st with index := some next } : DFAState).accept = st.accept from rfl)
              (show ({ st with index := some next } : DFAState).transitions =
                st.transitions from rfl)
          have hcl₁ : ClosedUp n (setState store sid { st with index := some next }) :=
            ClosedUp_shape hcl hsh₁
          have hchild : ∀ s ∈ st.transitions.map Prod.snd, n ≤ s := by
            intro s hs
            obtain ⟨p, hp, he⟩ := List.mem_map.1 hs
            rw [← he]
            exact hcl sid st hg hsid p hp
          have hcl₂ : ClosedUp n (reindexMany fuel
              (setState store sid { st with index := some next })
              (st.transitions.map Prod.snd) (next + 1)).1 :=
            ClosedUp_shape hcl₁ (reindexMany_shape fuel _ _ _)
          rw [ihf _ rest _ hcl₂ hrest i hi, ihf _ _ _ hcl₁ hchild i hi,
            getState_set_ne (by omega)]

/-- A run from a fresh state stays in the fresh region. -/
theorem run_newOk {n : ℕ} {store : Store} (hN : NewOk n store) :
    ∀ (w : List ℕ) (sid t : ℕ), n ≤ sid → run store sid w = some t → n ≤ t := by
  intro w
  induction w with
  | nil =>
    intro sid t hs h
    cases h
    exact hs
  | cons c w ih =>
    intro sid t hs h
    simp only [run] at h
    split at h
    · exact Option.noConfusion h
    · rename_i st hg
      split at h
      · exact Option.noConfusion h
      · rename_i t₁ hl
        have := (hN sid st hg hs).2 _ (tlookup_mem hl)
        exact ih t₁ t this h

/-! ### Claims C7 and C10 -/

/-- Claim C7 (confirmed): `minimize` builds its result exclusively from
freshly created states and leaves its input DFA completely unchanged:
on success, every heap cell of the input store (holding each input
state's label, accept flag, index and transition map) is exactly as
before the call, and the returned start state is a fresh object (its
index lies beyond the input heap). -/
theorem c7_minimize_leaves_input_unchanged (store : Store) (d : DFA)
    (store' : Store) (d' : DFA) (h : minimize store d = .ok (store', d')) :
    (∀ i, i < store.length → getState store' i = getState store i) ∧
    store.length ≤ d'.start := by
  unfold minimize hopcroftCall at h
  split at h
  · exact Except.noConfusion h
  · rename_i P hP
    split at h
    · exact Except.noConfusion h
    · rename_i b0 hb0
      split at h
      · exact Except.noConfusion h
      · rename_i store₁ memo₁ sid hreb
        cases h
        have hNew₀ : NewOk store.length store := by
          intro id st hg hid
          exact absurd (getState_some_lt hg) (by omega)
        obtain ⟨r1, r2, r3, r4, r5, r6⟩ :=
          rebuildGo_spec P store.length (rebuildFuel store P) (.inl b0) store []
            store₁ memo₁ sid (le_refl _) hNew₀ (by simp)
            (by intro _ _ he; exact Sum.noConfusion he) hreb
        constructor
        · intro i hi
          rw [reindexMany_pres store.length (dfsFuel store₁) store₁ [sid] 0
            r2.closedUp (by simpa using r5) i hi]
          exact r1 i hi
        · exact r5

/-- Witness for C7: minimizing the concrete two-state DFA `exStore1`
leaves its heap cells unchanged and starts the result at a fresh state. -/
theorem c7_minimize_leaves_input_unchanged_witness :
    getState min1Store 0 = getState exStore1 0 ∧
    getState min1Store 1 = getState exStore1 1 ∧
    exStore1.length ≤ min1Dfa.start :=
  ⟨(c7_minimize_leaves_input_unchanged exStore1 exDfa1 min1Store min1Dfa
      (by decide)).1 0 (by decide),
   (c7_minimize_leaves_input_unchanged exStore1 exDfa1 min1Store min1Dfa
      (by decide)).1 1 (by decide),
   (c7_minimize_leaves_input_unchanged exStore1 exDfa1 min1Store min1Dfa
      (by decide)).2⟩

/-- Claim C10 (confirmed): every state of the DFA returned by
`minimize` — every state reachable from the returned start state — has
`accept = True`, whatever the input's accept flags were: the rebuild
constructs each new state as `DFAState(state.accept)`, binding the
representative's accept flag to the `subset` field while `accept` takes
its default `True`. -/
theorem c10_minimized_states_all_accept (store : Store) (d : DFA)
    (store' : Store) (d' : DFA) (h : minimize store d = .ok (store', d')) :
    ∀ (w : List ℕ) (t : ℕ) (st : DFAState),
      run store' d'.start w = some t → getState store' t = some st →
      st.accept = true := by
  unfold minimize hopcroftCall at h
  split at h
  · exact Except.noConfusion h
  · rename_i P hP
    split at h
    · exact Except.noConfusion h
    · rename_i b0 hb0
      split at h
      · exact Except.noConfusion h
      · rename_i store₁ memo₁ sid hreb
        cases h
        have hNew₀ : NewOk store.length store := by
          intro id st hg hid
          exact absurd (getState_some_lt hg) (by omega)
        obtain ⟨r1, r2, r3, r4, r5, r6⟩ :=
          rebuildGo_spec P store.length (rebuildFuel store P) (.inl b0) store []
            store₁ memo₁ sid (le_refl _) hNew₀ (by simp)
            (by intro _ _ he; exact Sum.noConfusion he) hreb
        have hNew' : NewOk store.length
            (reindexMany (dfsFuel store₁) store₁ [sid] 0).1 :=
          NewOk_shape r2 (reindexMany_shape (dfsFuel store₁) store₁ [sid] 0)
        intro w t st hrun hget
        have ht : store.length ≤ t := run_newOk hNew' w sid t r5 hrun
        exact (hNew' t st hget ht).1

/-- Witness for C10: in the minimized two-state example, the state
reached by `[0]` (rebuilt from the non-accepting input state) has
`accept = true`. -/
theorem c10_minimized_states_all_accept_witness :
    (⟨Label.boolean false, true, some 1, []⟩ : DFAState).accept = true :=
  c10_minimized_states_all_accept exStore1 exDfa1 min1Store min1Dfa (by decide)
    [0] 3 ⟨Label.boolean false, true, some 1, []⟩ (by decide) (by decide)

/-! ### Claim C5: error-kind accounting -/

theorem tableGet_err {table : List (List (Option ℕ))} {j i : ℕ} {e : Err}
    (h : tableGet table j i = .error e) : e = .indexError := by
  unfold tableGet at h
  split at h
  · cases h; rfl
  · split at h
    · cases h; rfl
    · exact Except.noConfusion h

theorem addRoots_err {table : List (List (Option ℕ))} {i : ℕ} :
    ∀ {js : List ℕ} {acc : Finset ℕ} {e : Err},
      addRoots table i js acc = .error e → e = .indexError := by
  intro js
  induction js with
  | nil => intro acc e h; exact Except.noConfusion h
  | cons j js ih =>
    intro acc e h
    simp only [addRoots] at h
    split at h
    · rename_i e' heq
      cases h
      exact tableGet_err heq
    · exact ih h
    · exact ih h

theorem subset_transition_err {table : List (List (Option ℕ))} {tp : String}
    {l : Label} {i : ℕ} {e : Err}
    (h : subset_transition table tp l i = .error e) :
    e = .typeError ∨ e = .indexError := by
  cases l with
  | boolean b => cases h; exact Or.inl rfl
  | set S =>
    simp only [subset_transition] at h
    split at h
    · exact Except.noConfusion h
    · split at h
      · rename_i e' heq
        cases h
        exact Or.inr (addRoots_err heq)
      · split at h
        · split at h
          · rename_i e' heq
            cases h
            exact Or.inr (addRoots_err heq)
          · exact Except.noConfusion h
        · exact Except.noConfusion h

theorem addTransStore_err {store : Store} {sid symbol target : ℕ} {e : Err}
    (h : addTransStore store sid symbol target = .error e) :
    e = .indexError ∨ e = .transitionError := by
  unfold addTransStore at h
  split at h
  · cases h; exact Or.inl rfl
  · split at h
    · rename_i e' heq
      cases h
      unfold add_transition at heq
      split at heq
      · cases heq; exact Or.inr rfl
      · exact Except.noConfusion heq
    · exact Except.noConfusion h

theorem processSyms_no_config (table : List (List (Option ℕ))) (tp : String)
    (sid : ℕ) : ∀ (is : List ℕ) (store : Store) (queue : List ℕ)
      (e : Err) (s : Store),
      processSyms table tp sid is store queue = .error (e, s) →
      e ≠ .configError := by
  intro is
  induction is with
  | nil => intro store queue e s h; exact Except.noConfusion h
  | cons i is ih =>
    intro store queue e s h
    simp only [processSyms] at h
    split at h
    · cases h; simp
    · split at h
      · exact ih _ _ _ _ h
      · split at h
        · rename_i e' heq
          cases h
          rcases subset_transition_err heq with rfl | rfl <;> simp
        · exact ih _ _ _ _ h
        · split at h
          · split at h
            · rename_i e' heq
              cases h
              rcases addTransStore_err heq with rfl | rfl <;> simp
            · exact ih _ _ _ _ h
          · split at h
            · rename_i e' heq
              cases h
              rcases addTransStore_err heq with rfl | rfl <;> simp
            · exact ih _ _ _ _ h

theorem bfsLoop_no_config (table : List (List (Option ℕ))) (tp : String)
    (rank : ℕ) : ∀ (fuel : ℕ) (store : Store) (queue : List ℕ)
      (e : Err) (s : Store),
      bfsLoop table tp rank fuel store queue = .error (e, s) →
      e ≠ .configError := by
  intro fuel
  induction fuel with
  | zero => intro store queue e s h; cases h; simp
  | succ fuel ih =>
    intro store queue e s h
    cases queue with
    | nil => exact Except.noConfusion h
    | cons sid rest =>
      simp only [bfsLoop] at h
      split at h
      · rename_i e' heq
        cases h
        exact processSyms_no_config table tp sid _ _ _ _ _ heq
      · exact ih _ _ _ _ h

theorem rebuildGo_no_config (P : List (Finset ℕ)) :
    ∀ (fuel : ℕ) (task : Finset ℕ ⊕ ℕ × List (ℕ × ℕ)) (store : Store)
      (memo : List (Finset ℕ × ℕ)) (e : Err),
      rebuildGo P fuel task store memo = .error e → e ≠ .configError := by
  intro fuel
  induction fuel with
  | zero => intro task store memo e h; cases h; simp
  | succ fuel ih =>
    intro task store memo e h
    cases task with
    | inl b =>
      simp only [rebuildGo] at h
      split at h
      · cases h; simp
      · split at h
        · cases h; simp
        · split at h
          · rename_i e' heq
            cases h
            exact ih _ _ _ _ heq
          · exact Except.noConfusion h
    | inr pr =>
      obtain ⟨nid, ts⟩ := pr
      cases ts with
      | nil => exact Except.noConfusion h
      | cons p rest =>
        obtain ⟨symbol, target⟩ := p
        simp only [rebuildGo] at h
        split at h
        · cases h; simp
        · split at h
          · split at h
            · rename_i e' heq
              cases h
              rcases addTransStore_err heq with rfl | rfl <;> simp
            · exact ih _ _ _ _ h
          · split at h
            · rename_i e' heq
              cases h
              exact ih _ _ _ _ heq
            · split at h
              · rename_i e' heq
                cases h
                rcases addTransStore_err heq with rfl | rfl <;> simp
              · exact ih _ _ _ _ h

theorem minimize_no_config {store : Store} {d : DFA} {e : Err}
    (h : minimize store d = .error e) : e ≠ .configError := by
  unfold minimize hopcroftCall at h
  split at h
  · cases h; simp
  · split at h
    · cases h; simp
    · split at h
      · rename_i e' heq
        cases h
        unfold rebuild at heq
        exact rebuildGo_no_config _ _ _ _ _ _ heq
      · exact Except.noConfusion h

/-- Claim C5 (amended, proved): the only configuration error the
construction raises is the mode check — `get_automaton` fails with the
configuration `ValueError`, before any DFA state is created (the heap at
the error is empty), exactly when the mode selector is neither
`'reduced'` nor `'shortlex'`.  The shape of the transition table is not
validated (see the counterexample theorem for a non-square table that
passes the check, creates states and later dies with an `IndexError`). -/
theorem c5_config_error_iff_bad_mode (table : List (List (Option ℕ)))
    (tp : String) :
    (¬(tp = "shortlex" ∨ tp = "reduced") →
      get_automaton table tp = .error (.configError, [])) ∧
    (∀ s, get_automaton table tp = .error (.configError, s) →
      ¬(tp = "shortlex" ∨ tp = "reduced") ∧ s = []) := by
  constructor
  · intro hbad
    unfold get_automaton build_raw
    rw [if_neg hbad]
  · intro s h
    unfold get_automaton at h
    split at h
    · rename_i e₀ hbr
      cases h
      unfold build_raw at hbr
      split at hbr
      · split at hbr
        · rename_i e₁ hb
          cases hbr
          exact absurd rfl (bfsLoop_no_config table tp _ _ _ _ _ _ hb)
        · exact Except.noConfusion hbr
      · rename_i hcond
        cases hbr
        exact ⟨hcond, rfl⟩
    · rename_i store₀ d₀ hbr
      split at h
      · rename_i e₁ hmin
        cases h
        exact absurd rfl (minimize_no_config hmin)
      · exact Except.noConfusion h

/-- Witness for the amended C5 at the unsupported mode string `"foo"`. -/
theorem c5_config_error_iff_bad_mode_witness :
    get_automaton [[(none : Option ℕ)]] "foo" = .error (.configError, []) :=
  (c5_config_error_iff_bad_mode [[none]] "foo").1 (by decide)

/-! ### Claim C6 -/

/-- Witness for C6 on a concrete state carrying the transition
`0 ↦ 1`: re-registering symbol 0 fails with the `ValueError`, while
registering the fresh symbol 1 succeeds and reports that no transition
for 1 existed. -/
theorem c6_add_transition_guard_witness :
    add_transition ⟨.set ∅, true, none, [(0, 1)]⟩ 0 5 = .error .transitionError ∧
    tlookup 1 (⟨.set ∅, true, none, [(0, 1)]⟩ : DFAState).transitions = none :=
  ⟨(c6_add_transition_guard ⟨.set ∅, true, none, [(0, 1)]⟩ 0 5).1 (by decide),
   ((c6_add_transition_guard ⟨.set ∅, true, none, [(0, 1)]⟩ 1 5).2
     ⟨.set ∅, true, none, [(0, 1), (1, 5)]⟩ (by decide)).1⟩

/-- A state with no outgoing transitions accepts only the empty
sequence (and that iff its accept flag is set). -/
theorem acceptsFrom_noTrans (store : Store) (sid : ℕ) (st : DFAState)
    (h : getState store sid = some st) (ht : st.transitions = []) (w : List ℕ) :
    acceptsFrom store sid w = if w = [] then st.accept else false := by
  cases w with
  | nil => simp [acceptsFrom, run, h]
  | cons c w => simp [acceptsFrom, run, h, ht, tlookup]

/-- Claim C1 (code bug): minimization does not preserve the language.
On `exStore1` (start accepting with `0 → s1`, `s1` non-accepting) the
original DFA rejects the sequence `[0]`, but the DFA returned by
`minimize` accepts it: the rebuild constructs each new state as
`DFAState(state.accept)`, so every new state's accept flag is the
default `True`. -/
theorem c1_minimize_changes_language :
    acceptsFrom exStore1 0 [0] = false ∧
    minimize exStore1 exDfa1 = .ok (min1Store, min1Dfa) ∧
    min1Dfa.start = 2 ∧
    acceptsFrom min1Store 2 [0] = true := by decide

/-- Claim C3 (code bug): the DFA returned by `minimize` on `exStore3`
has two distinct reachable states (indices 4 and 5, the images of the
blocks `{a}` and `{b}`) that are Myhill–Nerode equivalent: every symbol
sequence is accepted from one iff it is accepted from the other, so no
finite sequence distinguishes them. -/
theorem c3_minimize_leaves_equivalent_states :
    min3 = .ok (min3Store, min3Dfa) ∧
    run min3Store min3Dfa.start [0] = some 4 ∧
    run min3Store min3Dfa.start [1] = some 5 ∧
    (∀ w, acceptsFrom min3Store 4 w = acceptsFrom min3Store 5 w) := by
  refine ⟨by decide, by decide, by decide, fun w => ?_⟩
  have h4 : getState min3Store 4 = some ⟨.boolean true, true, some 1, []⟩ := by decide
  have h5 : getState min3Store 5 = some ⟨.boolean false, true, some 2, []⟩ := by decide
  rw [acceptsFrom_noTrans min3Store 4 _ h4 rfl w,
    acceptsFrom_noTrans min3Store 5 _ h5 rfl w]

/-- Claim C4 (code bug): in the minimized DFA produced by
`get_automaton` on the 1×1 table, the two distinct reachable states
(the start state 2 and its successor 3) carry the same label
`True` — the rebuild stores the representative's accept flag in the
`subset` field. -/
theorem c4_minimized_duplicate_labels :
    c4res = .ok (c4Store, c4Dfa) ∧
    c4Dfa.start = 2 ∧
    run c4Store 2 [0] = some 3 ∧
    (2 : ℕ) ≠ 3 ∧
    (getState c4Store 2).map DFAState.subset = some (.boolean true) ∧
    (getState c4Store 3).map DFAState.subset = some (.boolean true) := by decide

/-- Claim C5 (counterexample): on a rectangular non-square 2×3 table
with a valid mode, `get_automaton` does not fail with a configuration
error before creating states — it creates four states and then raises
an `IndexError` from `table[j][i]` during construction. -/
theorem c5_nonsquare_not_config_checked :
    c5res = .error (.indexError, c5ErrStore) ∧ c5ErrStore.length = 4 := by decide

/-- Claim C8 (code bug): minimization is not idempotent on state count.
`minimize` on `exStore3` returns a 3-state DFA, but minimizing that
result again returns a 2-state DFA (the accept-flag bug makes all
states of the first output accepting, so the previously distinguishable
states 4 and 5 merge). -/
theorem c8_minimize_not_idempotent :
    min3 = .ok (min3Store, min3Dfa) ∧
    min3Dfa.num_states = 3 ∧
    min3b = .ok (okStore min3b, okDfa min3b) ∧
    (okDfa min3b).num_states = 2 := by decide

set_option maxHeartbeats 1600000 in
/-- Claim C9 (confirmed): for any 1×1 table and either mode, the raw
automaton has exactly two states — the empty-label state and the state
labelled `{0}` — with exactly one transition (on symbol 0, from the
former to the latter), and the minimized automaton returned by
`get_automaton` again has exactly two states joined by exactly one
transition. -/
theorem c9_rank_one (t : Option ℕ) (tp : String)
    (h : tp = "shortlex" ∨ tp = "reduced") :
    build_raw [[t]] tp =
      .ok ([⟨.set ∅, true, some 0, [(0, 1)]⟩, ⟨.set {0}, true, some 1, []⟩],
        ⟨0, [0], 2⟩) ∧
    get_automaton [[t]] tp =
      .ok ([⟨.set ∅, true, some 0, [(0, 1)]⟩, ⟨.set {0}, true, some 1, []⟩,
        ⟨.boolean true, true, some 0, [(0, 3)]⟩, ⟨.boolean true, true, some 1, []⟩],
        ⟨2, [0], 2⟩) := by
  rcases h with h | h <;> subst h <;> exact ⟨rfl, rfl⟩

/-- Witness for C9 at the concrete table `[[None]]` in shortlex mode. -/
theorem c9_rank_one_witness :
    build_raw [[(none : Option ℕ)]] "shortlex" =
      .ok ([⟨.set ∅, true, some 0, [(0, 1)]⟩, ⟨.set {0}, true, some 1, []⟩],
        ⟨0, [0], 2⟩) ∧
    get_automaton [[(none : Option ℕ)]] "shortlex" =
      .ok ([⟨.set ∅, true, some 0, [(0, 1)]⟩, ⟨.set {0}, true, some 1, []⟩,
        ⟨.boolean true, true, some 0, [(0, 3)]⟩, ⟨.boolean true, true, some 1, []⟩],
        ⟨2, [0], 2⟩) :=
  c9_rank_one none "shortlex" (Or.inl rfl)

end CoxAut
